import Mathlib

/-!
# gossipdns: the replicated entry set

A shallow embedding of `gossipdns/entry.go` (Entry, Entries and their
operations), of the operations of `gossipdns/nameserver.go` on the entry set
and of the name routes of `gossipdns/http.go`, together with the properties
of the ordering, the merge, the lookup, the tombstoning, the deletion and the
gossip handlers.

Strings are Lean strings; Go compares strings bytewise, which on valid
UTF-8 is the order of the code point sequences used here.  `router.PeerName`
and `address.Address` are unsigned machine integers that are only ever
compared, so they are natural numbers.  `Version` (int) and `Tombstone`
(int64) are integers; `Version++` and `now - e.Tombstone` wrap around at
the bounds of a signed 64-bit integer (`wrapInt64`), `int` being 64 bits wide.
-/

namespace Gossipdns

/-- Modelled from the spec: `router.PeerName` is declared outside the
package; the identifier of a peer, an unsigned integer compared with
`<` and `==`. -/
abbrev PeerName := Nat

/-- Modelled from the spec: `address.Address` is declared outside the
package; a 32-bit IPv4 address compared with `<` and `==`. -/
abbrev Address := Nat

/-- Go's `<` on strings: lexicographic on the character sequence. -/
def strLess (a b : String) : Bool := decide (a.data < b.data)

/-- The struct `Entry` of entry.go. -/
structure Entry where
  ContainerID : String
  Origin : PeerName
  Addr : Address
  Hostname : String
  Version : Int
  Tombstone : Int
deriving DecidableEq, Repr

/-- The slice type `Entries` of entry.go. -/
abbrev Entries := List Entry

namespace Entry

/-- Source `func (e1 *Entry) equal(e2 *Entry) bool`. -/
def equal (e1 e2 : Entry) : Bool :=
  e1.ContainerID == e2.ContainerID &&
    e1.Origin == e2.Origin &&
    e1.Addr == e2.Addr &&
    e1.Hostname == e2.Hostname

/-- Source `func (e1 *Entry) less(e2 *Entry) bool`: three early returns and
a final comparison of the addresses. -/
def less (e1 e2 : Entry) : Bool :=
  if strLess e1.Hostname e2.Hostname then true
  else if e1.Origin < e2.Origin then true
  else if strLess e1.ContainerID e2.ContainerID then true
  else decide (e1.Addr < e2.Addr)

/-- Source `func (e1 *Entry) merge(e2 *Entry)`; the receiver after the call. -/
def merge (e1 e2 : Entry) : Entry :=
  if e2.Version > e1.Version then
    { e1 with Version := e2.Version, Tombstone := e2.Tombstone }
  else e1

/-- The strict lexicographic order on the composite key
`(Hostname, Origin, ContainerID, Addr)`, written from the words of the
specification (not from the code of `less`). -/
def lexLess (a b : Entry) : Bool :=
  strLess a.Hostname b.Hostname ||
    (a.Hostname == b.Hostname &&
      (decide (a.Origin < b.Origin) ||
        (a.Origin == b.Origin &&
          (strLess a.ContainerID b.ContainerID ||
            (a.ContainerID == b.ContainerID && decide (a.Addr < b.Addr))))))

end Entry

/-- A zero-valued entry that carries only a hostname, as the literals
`Entry{Hostname: "A"}` of entry_test.go. -/
def hostEntry (h : String) : Entry :=
  { ContainerID := "", Origin := 0, Addr := 0, Hostname := h, Version := 0, Tombstone := 0 }

/-- An entry given by its key, Version and Tombstone zero. -/
def keyEntry (h : String) (o : PeerName) : Entry :=
  { ContainerID := "", Origin := o, Addr := 0, Hostname := h, Version := 0, Tombstone := 0 }

namespace Entries

/-- The cursor loop `for i < len(*es) && (*es)[i].less(&entry) { i++ }`,
run on the part of the slice that starts at the cursor `i`. -/
def skipLess (entry : Entry) : List Entry → Nat → Nat
  | [], i => i
  | e :: rest, i => if e.less entry then skipLess entry rest (i + 1) else i

/-- The cursor after the inner loop of `merge`, started at `i`. -/
def advance (es : Entries) (entry : Entry) (i : Nat) : Nat :=
  skipLess entry (es.drop i) i

/-- The variables of the loop of `Entries.merge`: the receiver `*es`, the
cursor `i` and the result `newEntries`. -/
structure MergeState where
  es : Entries
  i : Nat
  newEntries : Entries
deriving DecidableEq, Repr

/-- One iteration of `for _, entry := range incoming` in `Entries.merge`. -/
def mergeStep (st : MergeState) (entry : Entry) : MergeState :=
  let i := advance st.es entry st.i
  match st.es.get? i with
  | some e =>
    if e.equal entry then
      { es := st.es.set i (e.merge entry), i := i, newEntries := st.newEntries }
    else
      { es := st.es.take i ++ entry :: st.es.drop i, i := i,
        newEntries := st.newEntries ++ [entry] }
  | none =>
    { es := st.es.take i ++ entry :: st.es.drop i, i := i,
      newEntries := st.newEntries ++ [entry] }

/-- Source `func (es *Entries) merge(incoming Entries) Entries`: the pair of
the receiver after the call and the returned `newEntries`. -/
def merge (es incoming : Entries) : Entries × Entries :=
  let st := incoming.foldl mergeStep { es := es, i := 0, newEntries := [] }
  (st.es, st.newEntries)

end Entries

/-- Adjacent-pair sortedness by the lexicographic key order, strict. -/
def lexAscending : Entries → Bool
  | [] => true
  | [_] => true
  | a :: b :: rest => a.lexLess b && lexAscending (b :: rest)

/-- The merge seen from the cursor: `rest` is the part of the receiver from
the cursor on; the result is the new contents of that part and the entries
appended to `newEntries`. -/
def mergeFrom : List Entry → List Entry → List Entry × List Entry
  | rest, [] => (rest, [])
  | rest, e :: inc =>
    match rest.dropWhile (fun x => x.less e) with
    | r :: rs =>
      if r.equal e then
        ((rest.takeWhile (fun x => x.less e)) ++ (mergeFrom (r.merge e :: rs) inc).1,
          (mergeFrom (r.merge e :: rs) inc).2)
      else
        ((rest.takeWhile (fun x => x.less e)) ++ (mergeFrom (e :: r :: rs) inc).1,
          e :: (mergeFrom (e :: r :: rs) inc).2)
    | [] =>
      ((rest.takeWhile (fun x => x.less e)) ++ (mergeFrom [e] inc).1,
        e :: (mergeFrom [e] inc).2)

/-- What a merge of `incoming` may have done to an entry `old` of the local
set that is now `new`: same identity, Version not smaller, and Version and
Tombstone either untouched or those of an incoming entry of that identity
with a strictly greater Version. -/
def grownFrom (incoming : Entries) (old new : Entry) : Prop :=
  new.equal old = true ∧ old.Version ≤ new.Version ∧
    ((new.Version = old.Version ∧ new.Tombstone = old.Tombstone) ∨
      ∃ e ∈ incoming, e.equal old = true ∧ old.Version < e.Version ∧
        new.Version = e.Version ∧ new.Tombstone = e.Tombstone)

/-- The entries whose key differs from `(_, o, c, a)` only in the hostname. -/
def hostKeyed (o : PeerName) (c : String) (a : Address) (e : Entry) : Bool :=
  e.Origin == o && e.ContainerID == c && e.Addr == a

/-- The incoming entries whose hostname is not held by the local set. -/
def unknownHosts (es incoming : Entries) : Entries :=
  incoming.filter (fun e => !(es.any (fun l => l.Hostname == e.Hostname)))

/-- Modelled from the spec: the binary search of the Go standard library
(`sort.Search`), which is outside the repository: the loop
`for i < j { h := int(uint(i+j) >> 1); if !f(h) { i = h + 1 } else { j = h } }`,
with the number of iterations bounded by `fuel`. -/
def searchLoop (f : Nat → Bool) : Nat → Nat → Nat → Nat
  | 0, i, _ => i
  | fuel + 1, i, j =>
    if i < j then
      if !f ((i + j) / 2) then searchLoop f fuel ((i + j) / 2 + 1) j
      else searchLoop f fuel i ((i + j) / 2)
    else i

/-- Modelled from the spec: `sort.Search(n, f)` of the Go standard library,
the loop started at `i, j := 0, n`; the interval shrinks at every iteration, so
`n` iterations are enough. -/
def sortSearch (n : Nat) (f : Nat → Bool) : Nat := searchLoop f n 0 n

/-- The predicate handed to `sort.Search`: `p` at the element of index `k`
(the search never asks for an index outside the slice). -/
def atIndex {α : Type} (l : List α) (p : α → Bool) (k : Nat) : Bool :=
  match l.get? k with
  | some e => p e
  | none => true

/-- Source `func (es Entries) lookup(hostname string) Entries`.  Go's
`a >= b` on strings is `!(a < b)` and `a > b` is `b < a`; the result
`es[i : i+j]` is the first `i+j` entries without the first `i`. -/
def Entries.lookup (es : Entries) (hostname : String) : Entries :=
  let i := sortSearch es.length (atIndex es (fun e => !(strLess e.Hostname hostname)))
  match es.get? i with
  | none => []
  | some e =>
    if e.Hostname != hostname then []
    else
      let j := sortSearch (es.length - i)
        (fun j => atIndex es (fun e => strLess hostname e.Hostname) (i + j))
      (es.take (i + j)).drop i

/-- An entry given by hostname and container id, the rest zero, as the
literals `Entry{Hostname: "B", ContainerID: "foo"}` of entry_test.go. -/
def containerEntry (h c : String) : Entry :=
  { ContainerID := c, Origin := 0, Addr := 0, Hostname := h, Version := 0, Tombstone := 0 }

/-- No two entries of the list share the composite key. -/
def uniqueKeys : Entries → Bool
  | [] => true
  | a :: rest => !(rest.any (fun b => a.equal b)) && uniqueKeys rest

/-- The novel subset of an incoming batch in the words of the specification:
the incoming entries with no local entry of the same identity, or with a
strictly greater Version than the local entry of the same identity. -/
def novelSubset (es incoming : Entries) : Entries :=
  incoming.filter (fun e =>
    match es.find? (fun l => l.equal e) with
    | none => true
    | some l => decide (e.Version > l.Version))

/-- An entry given by hostname, origin, Version and Tombstone. -/
def versionEntry (h : String) (o : PeerName) (v t : Int) : Entry :=
  { ContainerID := "", Origin := o, Addr := 0, Hostname := h, Version := v, Tombstone := t }

/-- The arithmetic of a signed 64-bit machine integer (Go's `int64`, and `int`
on the 64-bit platforms): the result of an operation, reduced to the range
from -2^63 to 2^63 - 1. -/
def wrapInt64 (x : Int) : Int :=
  (x + 9223372036854775808) % 18446744073709551616 - 9223372036854775808

/-- The greatest value of a signed 64-bit integer, 2^63 - 1. -/
def maxInt64 : Int := 9223372036854775807

/-- The least value of a signed 64-bit integer, -2^63. -/
def minInt64 : Int := -9223372036854775808

/-- The loop of `Entries.tombstone` from one element on: every iteration reads
the element it visits and, when it matches, writes it back at the same index
with `e.Version++` (which wraps at the machine bound) and `e.Tombstone = now()`.
`now k` is what the call number `k` of `now()` returns, and `k` counts the
calls made so far. -/
def Entries.tombstoneFrom (ourname : PeerName) (f : Entry → Bool) (now : Nat → Int) :
    Nat → Entries → Entries
  | _, [] => []
  | k, e :: rest =>
    if f e && e.Origin == ourname then
      { e with Version := wrapInt64 (e.Version + 1), Tombstone := now k }
        :: Entries.tombstoneFrom ourname f now (k + 1) rest
    else e :: Entries.tombstoneFrom ourname f now k rest

/-- Source `func (es *Entries) tombstone(ourname router.PeerName, f func(*Entry) bool)`:
the loop over the whole set, no call of `now()` made yet. -/
def Entries.tombstone (es : Entries) (ourname : PeerName) (f : Entry → Bool)
    (now : Nat → Int) : Entries :=
  Entries.tombstoneFrom ourname f now 0 es

/-- The loop of `Entries.delete`: `n` iterations are left, `k` is the index the
`range` visits and `i` the index written next; the elements are read from and
written to the same array. -/
def Entries.deleteLoop (f : Entry → Bool) : Nat → Entries → Nat → Nat → Entries × Nat
  | 0, arr, _, i => (arr, i)
  | n + 1, arr, k, i =>
    match arr.get? k with
    | none => (arr, i)
    | some e =>
      if f e then deleteLoop f n arr (k + 1) i
      else deleteLoop f n (arr.set i e) (k + 1) (i + 1)

/-- Source `func (es *Entries) delete(f func(*Entry) bool)`: the loop over the
`len(*es)` elements, then `*es = (*es)[:i]`. -/
def Entries.delete (es : Entries) (f : Entry → Bool) : Entries :=
  ((Entries.deleteLoop f es.length es 0 0).1).take (Entries.deleteLoop f es.length es 0 0).2

/-- The state of a `Nameserver` that the operations on the entry set read and
write: `ourName` and `entries` (the lock, the gossip handle and the quit
channel carry no data of the set). -/
structure Nameserver where
  ourName : PeerName
  entries : Entries
deriving DecidableEq, Repr

/-- Source `func (n *Nameserver) PeerGone(peer *router.Peer)`, `p` being
`peer.Name`. -/
def Nameserver.PeerGone (n : Nameserver) (p : PeerName) : Nameserver :=
  { n with entries := n.entries.delete (fun e => e.Origin == p) }

/-- What `tombstone(p, f)` does to one entry, `T` saying which Tombstone the
calls of `now()` allow: the identity is kept; an entry for which `f` holds and
whose Origin is `p` gets the machine increment of its Version, which is
Version + 1 below the greatest integer and the least integer at the greatest,
and a Tombstone as `T` says; every other entry is unchanged. -/
def tombstoned (p : PeerName) (f : Entry → Bool) (T : Int → Prop) (old new : Entry) :
    Prop :=
  new.equal old = true ∧
    ((f old = true ∧ old.Origin = p) →
      new.Version = wrapInt64 (old.Version + 1) ∧
        (minInt64 ≤ old.Version → old.Version < maxInt64 →
          new.Version = old.Version + 1) ∧
        (old.Version = maxInt64 → new.Version = minInt64) ∧
        T new.Tombstone) ∧
    (¬ (f old = true ∧ old.Origin = p) → new = old)

/-- Source `func (n *Nameserver) AddEntry(e Entry) error`: the merge of the
singleton batch, then the broadcast of the novel list.  `broadcast` is the
outcome of `n.gossip.GossipBroadcast`, which belongs to the transport. -/
def Nameserver.AddEntry (n : Nameserver) (e : Entry) (broadcast : Entries → Option String) :
    Nameserver × Option String :=
  ({ n with entries := (n.entries.merge [e]).1 }, broadcast (n.entries.merge [e]).2)

/-- Source `func (n *Nameserver) Lookup(hostname string) []address.Address`:
the addresses of the looked-up entries, those with `Tombstone > 0` skipped. -/
def Nameserver.Lookup (n : Nameserver) (hostname : String) : List Address :=
  ((n.entries.lookup hostname).filter (fun e => !(decide (e.Tombstone > 0)))).map Entry.Addr

/-- The constant `int64(tombstoneTimeout/time.Second)`: ten minutes in seconds. -/
def tombstoneTimeoutSeconds : Int := 600

/-- The predicate `deleteTombstones` hands to `delete`:
`now-e.Tombstone > int64(tombstoneTimeout/time.Second)`, the subtraction being
that of `int64`. -/
def expired (now : Int) (e : Entry) : Bool :=
  decide (wrapInt64 (now - e.Tombstone) > tombstoneTimeoutSeconds)

/-- Source `func (n *Nameserver) deleteTombstones()`, `now` being the value of
`time.Now().Unix()`. -/
def Nameserver.deleteTombstones (n : Nameserver) (now : Int) : Nameserver :=
  { n with entries := n.entries.delete (expired now) }

/-- The predicate `Nameserver.Delete` hands to `tombstone`: three guards that
return false, then true. -/
def deleteFilter (hostname containerid ipStr : String) (ip : Address) (e : Entry) : Bool :=
  if hostname != "*" && e.Hostname != hostname then false
  else if containerid != "*" && e.ContainerID != containerid then false
  else if ipStr != "*" && e.Addr != ip then false
  else true

/-- Source `func (n *Nameserver) Delete(hostname, containerid, ipStr string, ip address.Address)`,
`now k` being what the call number `k` of `now()` returns. -/
def Nameserver.Delete (n : Nameserver) (hostname containerid ipStr : String) (ip : Address)
    (now : Nat → Int) : Nameserver :=
  { n with entries :=
      n.entries.tombstone n.ourName (deleteFilter hostname containerid ipStr ip) now }

/-- Modelled from the spec: `sort.IsSorted` of the Go standard library, which
is outside the repository, on `Entries` with `Less(i, j) = es[i].less(&es[j])`:
`for i := n - 1; i > 0; i-- { if data.Less(i, i-1) { return false } }; return true`,
the pairs nearest the end tested first. -/
def sortIsSorted : Entries → Bool
  | [] => true
  | [_] => true
  | a :: b :: rest => sortIsSorted (b :: rest) && !(b.less a)

/-- Source `func (es *Entries) check() error`: `none` is the nil error. -/
def Entries.check (es : Entries) : Option String :=
  if !sortIsSorted es then some "Not sorted!" else none

/-- The three results of `receiveGossip` and the nameserver after the call; a
`GossipData` is `none` for the nil interface and `some es` for a reference to
the entry set `es`. -/
structure GossipResult where
  ns : Nameserver
  novel : Option Entries
  received : Option Entries
  err : Option String
deriving DecidableEq, Repr

/-- Source `func (n *Nameserver) receiveGossip(msg []byte)`.  `decode` is the
gob decoder, which is outside the repository. -/
def Nameserver.receiveGossip (n : Nameserver) (decode : List Nat → Except String Entries)
    (msg : List Nat) : GossipResult :=
  match decode msg with
  | Except.error err => { ns := n, novel := none, received := none, err := some err }
  | Except.ok entries =>
    match entries.check with
    | some err => { ns := n, novel := none, received := none, err := some err }
    | none =>
      { ns := { n with entries := (n.entries.merge entries).1 },
        novel := some (n.entries.merge entries).2,
        received := some entries, err := none }

/-- Source `func (n *Nameserver) OnGossip(msg []byte) (router.GossipData, error)`,
with the nameserver after the call. -/
def Nameserver.OnGossip (n : Nameserver) (decode : List Nat → Except String Entries)
    (msg : List Nat) : Nameserver × Option Entries × Option String :=
  ((n.receiveGossip decode msg).ns, (n.receiveGossip decode msg).novel,
    (n.receiveGossip decode msg).err)

/-- Source `func (n *Nameserver) OnGossipBroadcast(msg []byte) (router.GossipData, error)`,
with the nameserver after the call. -/
def Nameserver.OnGossipBroadcast (n : Nameserver) (decode : List Nat → Except String Entries)
    (msg : List Nat) : Nameserver × Option Entries × Option String :=
  ((n.receiveGossip decode msg).ns, (n.receiveGossip decode msg).received,
    (n.receiveGossip decode msg).err)

/-- Source `func (es *Entries) Merge(other router.GossipData)`: the value
`es.merge` returns is compared with nil and, when it is not nil, handed to
`panic`.  The returned slice is nil exactly when nothing was appended to it.
`Except.error v` is the panic with value `v`, `Except.ok es` the receiver
after a call that returns. -/
def Entries.Merge (es other : Entries) : Except Entries Entries :=
  if (es.merge other).2.isEmpty then Except.ok (es.merge other).1
  else Except.error (es.merge other).2

/-- The entry the PUT handler builds: `Entry{Hostname: dns.Fqdn(hostname), Addr: ip,
Origin: n.ourName, ContainerID: container}`. -/
def putEntry (fqdn : String → String) (n : Nameserver) (hostname : String) (ip : Address)
    (container : String) : Entry :=
  { Hostname := fqdn hostname, Addr := ip, Origin := n.ourName, ContainerID := container,
    Version := 0, Tombstone := 0 }

/-- Source: the handler of `PUT /name/{hostname}/{ip}/{container}`; the result
is the nameserver after the request and the status code.  `fqdn` is
`dns.Fqdn` and `parseIP` is `address.ParseIP`, both outside the package. -/
def putName (fqdn : String → String) (parseIP : String → Option Address)
    (broadcast : Entries → Option String) (n : Nameserver)
    (hostname ipStr container : String) : Nameserver × Nat :=
  match parseIP ipStr with
  | none => (n, 400)
  | some ip =>
    match (n.AddEntry (putEntry fqdn n hostname ip container) broadcast).2 with
    | some _ => ((n.AddEntry (putEntry fqdn n hostname ip container) broadcast).1, 400)
    | none => ((n.AddEntry (putEntry fqdn n hostname ip container) broadcast).1, 204)

/-- Source: the handler of `GET /name/{hostname}`; the status code and the
addresses written (the handler renders each with `a.String()`). -/
def getName (n : Nameserver) (hostname : String) : Nat × List Address :=
  if (n.Lookup hostname).length == 0 then (404, [])
  else (200, n.Lookup hostname)

/-- Modelled from the spec: FQDN normalisation (`dns.Fqdn` of the DNS library,
outside the repository): lowercase, append a trailing dot if missing. -/
def dnsFqdn (s : String) : String :=
  if (s.data.map Char.toLower).getLast? = some '.' then ⟨s.data.map Char.toLower⟩
  else ⟨s.data.map Char.toLower ++ ['.']⟩

/-- Some adjacent pair of the batch is strictly out of lexicographic key order. -/
def descends : Entries → Bool
  | [] => false
  | [_] => false
  | a :: b :: rest => b.lexLess a || descends (b :: rest)

/-- The entries `Delete(hostname, containerid, ipStr, ip)` selects on the peer
`ourName`, in the words of the specification: the own entries that match
every field that is not the wildcard "*". -/
def selected (ourName : PeerName) (hostname containerid ipStr : String) (ip : Address)
    (e : Entry) : Prop :=
  e.Origin = ourName ∧ (hostname = "*" ∨ e.Hostname = hostname) ∧
    (containerid = "*" ∨ e.ContainerID = containerid) ∧
    (ipStr = "*" ∨ e.Addr = ip)

/-- What a Delete that selects the entries `sel`, with `now()` returning `t`,
does to one entry: a selected entry keeps its key and gets the machine
increment of its Version (Version + 1 below the greatest integer, the least
integer at the greatest) and Tombstone `t`; every other entry is unchanged. -/
def deleted (sel : Entry → Prop) (t : Int) (old new : Entry) : Prop :=
  (sel old →
    new = { old with Version := wrapInt64 (old.Version + 1), Tombstone := t } ∧
      (minInt64 ≤ old.Version → old.Version < maxInt64 →
        new = { old with Version := old.Version + 1, Tombstone := t }) ∧
      (old.Version = maxInt64 →
        new = { old with Version := minInt64, Tombstone := t })) ∧
  (¬ sel old → new = old)

/-! ## Properties -/

theorem skipLess_eq (e : Entry) (rest : List Entry) (i : Nat) :
    Entries.skipLess e rest i = i + (rest.takeWhile (fun x => x.less e)).length := by
  induction rest generalizing i with
  | nil => simp [Entries.skipLess]
  | cons a t ih =>
    by_cases h : a.less e = true
    · simp [Entries.skipLess, h, ih, List.takeWhile_cons]; omega
    · simp [Entries.skipLess, h, List.takeWhile_cons]

theorem advance_append (pre rest : List Entry) (e : Entry) :
    Entries.advance (pre ++ rest) e pre.length
      = (pre ++ rest.takeWhile (fun x => x.less e)).length := by
  simp [Entries.advance, skipLess_eq]

theorem getAt_length (p dr : List Entry) :
    (p ++ dr).get? p.length = dr.head? := by
  induction p with
  | nil => cases dr <;> simp
  | cons a t ih => simpa using ih

theorem set_at_length (p rs : List Entry) (r x : Entry) :
    (p ++ r :: rs).set p.length x = p ++ x :: rs := by
  induction p with
  | nil => simp
  | cons a t ih => simp

theorem mergeStep_at (p dr nov : List Entry) (e : Entry) (k : Nat) :
    Entries.advance (p ++ dr) e k = p.length →
    Entries.mergeStep { es := p ++ dr, i := k, newEntries := nov } e =
      match dr with
      | r :: rs =>
        if r.equal e then
          { es := p ++ (r.merge e :: rs), i := p.length, newEntries := nov }
        else
          { es := p ++ (e :: r :: rs), i := p.length, newEntries := nov ++ [e] }
      | [] => { es := p ++ [e], i := p.length, newEntries := nov ++ [e] } := by
  intro hadv
  unfold Entries.mergeStep
  simp only [hadv, getAt_length, List.take_left, List.drop_left]
  cases dr with
  | nil => simp
  | cons r rs =>
    simp only [List.head?_cons, set_at_length]

theorem mergeStep_append (pre rest nov : List Entry) (e : Entry) :
    Entries.mergeStep { es := pre ++ rest, i := pre.length, newEntries := nov } e =
      match rest.dropWhile (fun x => x.less e) with
      | r :: rs =>
        if r.equal e then
          { es := (pre ++ rest.takeWhile (fun x => x.less e)) ++ (r.merge e :: rs),
            i := (pre ++ rest.takeWhile (fun x => x.less e)).length, newEntries := nov }
        else
          { es := (pre ++ rest.takeWhile (fun x => x.less e)) ++ (e :: r :: rs),
            i := (pre ++ rest.takeWhile (fun x => x.less e)).length,
            newEntries := nov ++ [e] }
      | [] =>
        { es := (pre ++ rest.takeWhile (fun x => x.less e)) ++ [e],
          i := (pre ++ rest.takeWhile (fun x => x.less e)).length,
          newEntries := nov ++ [e] } := by
  have hsplit := List.takeWhile_append_dropWhile (fun x => x.less e) rest
  have hes : pre ++ rest = (pre ++ rest.takeWhile (fun x => x.less e))
      ++ rest.dropWhile (fun x => x.less e) := by
    rw [List.append_assoc, hsplit]
  have hadv := advance_append pre rest e
  rw [hes] at hadv ⊢
  exact mergeStep_at _ _ nov e _ hadv

theorem foldl_mergeStep (inc pre rest nov : List Entry) :
    (inc.foldl Entries.mergeStep { es := pre ++ rest, i := pre.length, newEntries := nov }).es
        = pre ++ (mergeFrom rest inc).1 ∧
    (inc.foldl Entries.mergeStep { es := pre ++ rest, i := pre.length, newEntries := nov }).newEntries
        = nov ++ (mergeFrom rest inc).2 := by
  induction inc generalizing pre rest nov with
  | nil => simp [mergeFrom]
  | cons e inc ih =>
    rw [List.foldl_cons, mergeStep_append]
    unfold mergeFrom
    cases hdr : rest.dropWhile (fun x => x.less e) with
    | nil =>
      simp only []
      have := ih (pre ++ rest.takeWhile (fun x => x.less e)) [e] (nov ++ [e])
      simpa using this
    | cons r rs =>
      simp only []
      by_cases hq : r.equal e = true
      · simp only [hq, if_true]
        have := ih (pre ++ rest.takeWhile (fun x => x.less e)) (r.merge e :: rs) nov
        simpa using this
      · simp only [hq, if_false]
        have := ih (pre ++ rest.takeWhile (fun x => x.less e)) (e :: r :: rs) (nov ++ [e])
        simpa using this

theorem merge_eq_mergeFrom (es incoming : Entries) :
    Entries.merge es incoming = mergeFrom es incoming := by
  have h := foldl_mergeStep incoming [] es []
  simp only [List.nil_append, List.length_nil] at h
  unfold Entries.merge
  exact Prod.ext h.1 h.2

theorem strLess_iff (a b : String) : strLess a b = true ↔ a < b := by
  simp [strLess, String.lt_iff_toList_lt]

theorem equal_iff (a b : Entry) :
    a.equal b = true ↔
      a.ContainerID = b.ContainerID ∧ a.Origin = b.Origin ∧ a.Addr = b.Addr ∧
        a.Hostname = b.Hostname := by
  simp [Entry.equal, and_assoc]

theorem less_iff (a b : Entry) :
    a.less b = true ↔
      a.Hostname < b.Hostname ∨ a.Origin < b.Origin ∨ a.ContainerID < b.ContainerID ∨
        a.Addr < b.Addr := by
  unfold Entry.less
  by_cases h1 : strLess a.Hostname b.Hostname = true
  · simp [h1, (strLess_iff _ _).1 h1]
  · have h1' : ¬ a.Hostname < b.Hostname := fun h => h1 ((strLess_iff _ _).2 h)
    by_cases h2 : a.Origin < b.Origin
    · simp [h1, h2]
    · by_cases h3 : strLess a.ContainerID b.ContainerID = true
      · simp [h1, h2, h3, (strLess_iff _ _).1 h3]
      · have h3' : ¬ a.ContainerID < b.ContainerID := fun h => h3 ((strLess_iff _ _).2 h)
        simp [h1, h2, h3, h1', h3']

theorem lexLess_iff (a b : Entry) :
    a.lexLess b = true ↔
      a.Hostname < b.Hostname ∨ (a.Hostname = b.Hostname ∧
        (a.Origin < b.Origin ∨ (a.Origin = b.Origin ∧
          (a.ContainerID < b.ContainerID ∨
            (a.ContainerID = b.ContainerID ∧ a.Addr < b.Addr))))) := by
  simp [Entry.lexLess, strLess_iff]

theorem less_of_lexLess (a b : Entry) (h : a.lexLess b = true) : a.less b = true := by
  rw [lexLess_iff] at h
  rw [less_iff]
  tauto

theorem less_irrefl (a : Entry) : a.less a = false := by
  have : ¬ (a.less a = true) := by
    rw [less_iff]; simp
  simpa using this

theorem equal_refl (a : Entry) : a.equal a = true := by
  rw [equal_iff]; simp

theorem merge_self (a : Entry) : a.merge a = a := by
  simp [Entry.merge]

theorem equal_symm {a b : Entry} (h : a.equal b = true) : b.equal a = true := by
  rw [equal_iff] at *
  exact ⟨h.1.symm, h.2.1.symm, h.2.2.1.symm, h.2.2.2.symm⟩

theorem equal_trans {a b c : Entry} (h1 : a.equal b = true) (h2 : b.equal c = true) :
    a.equal c = true := by
  rw [equal_iff] at *
  exact ⟨h1.1.trans h2.1, h1.2.1.trans h2.2.1, h1.2.2.1.trans h2.2.2.1,
    h1.2.2.2.trans h2.2.2.2⟩

theorem merge_equal (r e : Entry) : (r.merge e).equal r = true := by
  unfold Entry.merge
  split
  · rw [equal_iff]; simp
  · exact equal_refl r

theorem merge_fields (r e : Entry) :
    (r.merge e).Hostname = r.Hostname ∧ (r.merge e).Origin = r.Origin ∧
      (r.merge e).ContainerID = r.ContainerID ∧ (r.merge e).Addr = r.Addr := by
  unfold Entry.merge
  split <;> simp

theorem mem_takeWhile_less (e : Entry) (rest : List Entry) (s : Entry)
    (hs : s ∈ rest.takeWhile (fun x => x.less e)) : s.less e = true := by
  induction rest with
  | nil => simp at hs
  | cons a t ih =>
    rw [List.takeWhile_cons] at hs
    by_cases ha : a.less e = true
    · simp only [ha, if_true, List.mem_cons] at hs
      rcases hs with rfl | hs
      · exact ha
      · exact ih hs
    · simp [ha] at hs

/-- The first iteration of the merge, in its two outcomes: the entry at the
cursor has the identity of `e` and is merged, or `e` is inserted.  `sk` is
the part of the receiver the cursor skips and `dr` what is left. -/
theorem mergeFrom_cons_cases (rest inc : List Entry) (e : Entry) :
    ∃ sk dr, rest = sk ++ dr ∧ (∀ s ∈ sk, s.less e = true) ∧
      (∀ r ∈ dr.head?, r.less e = false) ∧
      ((∃ r rs, dr = r :: rs ∧ r.equal e = true ∧
          mergeFrom rest (e :: inc) =
            (sk ++ (mergeFrom (r.merge e :: rs) inc).1,
              (mergeFrom (r.merge e :: rs) inc).2)) ∨
        ((∀ r ∈ dr.head?, r.equal e = false) ∧
          mergeFrom rest (e :: inc) =
            (sk ++ (mergeFrom (e :: dr) inc).1, e :: (mergeFrom (e :: dr) inc).2))) := by
  refine ⟨rest.takeWhile (fun x => x.less e), rest.dropWhile (fun x => x.less e),
    (List.takeWhile_append_dropWhile _ rest).symm, ?_, ?_, ?_⟩
  · intro s hs
    exact mem_takeWhile_less e rest s hs
  · intro r hr
    have := List.head?_dropWhile_not (fun x => x.less e) rest
    rw [Option.mem_def.1 hr] at this
    simpa using this
  · cases hd : rest.dropWhile (fun x => x.less e) with
    | nil =>
      right
      refine ⟨by simp, ?_⟩
      rw [mergeFrom, hd]
    | cons r rs =>
      by_cases hq : r.equal e = true
      · left
        refine ⟨r, rs, rfl, hq, ?_⟩
        rw [mergeFrom, hd]
        simp only [hq, if_true]
      · right
        refine ⟨by simpa using hq, ?_⟩
        rw [mergeFrom, hd]
        simp only [hq]
        rfl

theorem grownFrom_refl (inc : Entries) (a : Entry) : grownFrom inc a a :=
  ⟨equal_refl a, le_refl _, Or.inl ⟨rfl, rfl⟩⟩

theorem grownFrom_cons {inc : Entries} {a b : Entry} (e : Entry) (h : grownFrom inc a b) :
    grownFrom (e :: inc) a b := by
  obtain ⟨h1, h2, h3⟩ := h
  refine ⟨h1, h2, ?_⟩
  rcases h3 with h3 | ⟨x, hx, h4⟩
  · exact Or.inl h3
  · exact Or.inr ⟨x, List.mem_cons_of_mem _ hx, h4⟩

theorem grownFrom_merge {inc : Entries} {r e b : Entry} (hq : r.equal e = true)
    (h : grownFrom inc (r.merge e) b) : grownFrom (e :: inc) r b := by
  obtain ⟨h1, h2, h3⟩ := h
  have hbr : b.equal r = true := equal_trans h1 (merge_equal r e)
  by_cases hv : e.Version > r.Version
  · have hmv : (r.merge e).Version = e.Version := by simp [Entry.merge, hv]
    have hmt : (r.merge e).Tombstone = e.Tombstone := by simp [Entry.merge, hv]
    rw [hmv] at h2
    refine ⟨hbr, by omega, Or.inr ?_⟩
    rcases h3 with ⟨h3, h4⟩ | ⟨x, hx, h4, h5, h6⟩
    · exact ⟨e, List.mem_cons_self _ _, equal_symm hq, hv, by rw [h3, hmv], by rw [h4, hmt]⟩
    · refine ⟨x, List.mem_cons_of_mem _ hx, equal_trans h4 (merge_equal r e), ?_, h6⟩
      rw [hmv] at h5
      omega
  · have hm : r.merge e = r := by simp [Entry.merge, hv]
    rw [hm] at h1 h2 h3
    exact grownFrom_cons e ⟨h1, h2, h3⟩

theorem forall₂_grownFrom_refl (inc : Entries) (l : List Entry) :
    List.Forall₂ (grownFrom inc) l l := by
  induction l with
  | nil => exact List.Forall₂.nil
  | cons a t ih => exact List.Forall₂.cons (grownFrom_refl inc a) ih

theorem forall₂_grownFrom_cons {inc : Entries} (e : Entry) {l1 l2 : List Entry}
    (h : List.Forall₂ (grownFrom inc) l1 l2) : List.Forall₂ (grownFrom (e :: inc)) l1 l2 :=
  h.imp (fun _ _ hab => grownFrom_cons e hab)

theorem mergeFrom_grow (inc rest : List Entry) :
    (∃ sub, List.Sublist sub (mergeFrom rest inc).1 ∧
        List.Forall₂ (grownFrom inc) rest sub) ∧
      (∀ e ∈ inc, ∃ r ∈ (mergeFrom rest inc).1, r.equal e = true) ∧
      (∀ r ∈ (mergeFrom rest inc).1,
        (∃ l ∈ rest, r.equal l = true) ∨ (∃ e ∈ inc, r.equal e = true)) ∧
      (mergeFrom rest inc).1.length = rest.length + (mergeFrom rest inc).2.length := by
  induction inc generalizing rest with
  | nil =>
    refine ⟨⟨rest, List.Sublist.refl _, forall₂_grownFrom_refl _ _⟩, ?_, ?_, ?_⟩
    · intro e he; cases he
    · intro r hr; exact Or.inl ⟨r, hr, equal_refl r⟩
    · simp [mergeFrom]
  | cons e inc ih =>
    obtain ⟨sk, dr, rfl, _, _, hc⟩ := mergeFrom_cons_cases rest inc e
    rcases hc with ⟨r, rs, rfl, hq, heq⟩ | ⟨_, heq⟩
    · -- the entry at the cursor is merged
      obtain ⟨⟨sub, hsub, hf⟩, h2, h3, h4⟩ := ih (r.merge e :: rs)
      rw [heq]
      simp only
      cases hf with
      | cons hrb hrest =>
        rename_i b subs
        have hb_mem : b ∈ (mergeFrom (r.merge e :: rs) inc).1 :=
          hsub.subset (List.mem_cons_self _ _)
        refine ⟨⟨sk ++ b :: subs,
          List.Sublist.append (List.Sublist.refl _) hsub, ?_⟩, ?_, ?_, ?_⟩
        · exact List.rel_append (forall₂_grownFrom_refl _ _)
            (List.Forall₂.cons (grownFrom_merge hq hrb) (forall₂_grownFrom_cons e hrest))
        · intro x hx
          rcases List.mem_cons.1 hx with rfl | hx
          · exact ⟨b, List.mem_append_right _ hb_mem,
              equal_trans hrb.1 (equal_trans (merge_equal r x) hq)⟩
          · obtain ⟨y, hy, hyx⟩ := h2 x hx
            exact ⟨y, List.mem_append_right _ hy, hyx⟩
        · intro x hx
          rcases List.mem_append.1 hx with hx | hx
          · left
            exact ⟨x, List.mem_append_left _ hx, equal_refl x⟩
          · rcases h3 x hx with ⟨l, hl, hxl⟩ | ⟨y, hy, hxy⟩
            · left
              rcases List.mem_cons.1 hl with rfl | hl
              · exact ⟨r, by simp, equal_trans hxl (merge_equal r e)⟩
              · exact ⟨l, by simp [hl], hxl⟩
            · right
              exact ⟨y, List.mem_cons_of_mem _ hy, hxy⟩
        · rw [List.length_append, h4]
          simp only [List.length_append, List.length_cons]
          omega
    · -- the entry is inserted at the cursor
      obtain ⟨⟨sub, hsub, hf⟩, h2, h3, h4⟩ := ih (e :: dr)
      rw [heq]
      simp only
      cases hf with
      | cons heb hrest =>
        rename_i b subs
        have hb_mem : b ∈ (mergeFrom (e :: dr) inc).1 :=
          hsub.subset (List.mem_cons_self _ _)
        refine ⟨⟨sk ++ subs,
          List.Sublist.append (List.Sublist.refl _)
            ((List.sublist_cons_self b subs).trans hsub), ?_⟩, ?_, ?_, ?_⟩
        · exact List.rel_append (forall₂_grownFrom_refl (e :: inc) sk)
            (forall₂_grownFrom_cons e hrest)
        · intro x hx
          rcases List.mem_cons.1 hx with rfl | hx
          · exact ⟨b, List.mem_append_right _ hb_mem, heb.1⟩
          · obtain ⟨y, hy, hyx⟩ := h2 x hx
            exact ⟨y, List.mem_append_right _ hy, hyx⟩
        · intro x hx
          rcases List.mem_append.1 hx with hx | hx
          · left
            exact ⟨x, List.mem_append_left _ hx, equal_refl x⟩
          · rcases h3 x hx with ⟨l, hl, hxl⟩ | ⟨y, hy, hxy⟩
            · rcases List.mem_cons.1 hl with rfl | hl
              · right
                exact ⟨l, List.mem_cons_self _ _, hxl⟩
              · left
                exact ⟨l, List.mem_append_right _ hl, hxl⟩
            · right
              exact ⟨y, List.mem_cons_of_mem _ hy, hxy⟩
        · rw [List.length_append, h4]
          simp only [List.length_append, List.length_cons]
          omega

/-- C8. Merge is grow-only and monotone in version, for any local set and any
incoming batch: (i) the former local entries survive in order, each with the
same identity, a Version not smaller, and Version and Tombstone untouched or
taken from an incoming entry of that identity with a strictly greater Version;
(ii) every incoming identity is present; (iii) every entry present has the
identity of a former local or an incoming entry; (iv) the length grows by the
length of the returned novel list. -/
theorem merge_grow_only (es incoming : Entries) :
    (∃ sub, List.Sublist sub (Entries.merge es incoming).1 ∧
        List.Forall₂ (grownFrom incoming) es sub) ∧
      (∀ e ∈ incoming, ∃ r ∈ (Entries.merge es incoming).1, r.equal e = true) ∧
      (∀ r ∈ (Entries.merge es incoming).1,
        (∃ l ∈ es, r.equal l = true) ∨ (∃ e ∈ incoming, r.equal e = true)) ∧
      (Entries.merge es incoming).1.length
        = es.length + (Entries.merge es incoming).2.length := by
  rw [merge_eq_mergeFrom]
  exact mergeFrom_grow incoming es

theorem mergeFrom_tail_self (t : List Entry) (e : Entry)
    (h : lexAscending (e :: t) = true) : mergeFrom (e :: t) t = (e :: t, []) := by
  induction t generalizing e with
  | nil => rfl
  | cons e2 t2 ih =>
    simp only [lexAscending, Bool.and_eq_true] at h
    have hl : e.less e2 = true := less_of_lexLess _ _ h.1
    have h2 : e2.less e2 = false := less_irrefl e2
    have hd : (e :: e2 :: t2).dropWhile (fun x => x.less e2) = e2 :: t2 := by
      simp [List.dropWhile, hl, h2]
    have ht : (e :: e2 :: t2).takeWhile (fun x => x.less e2) = [e] := by
      simp [List.takeWhile, hl, h2]
    unfold mergeFrom
    rw [hd, ht]
    simp only [equal_refl, if_true, merge_self, ih e2 h.2]
    rfl

/-- C6. Merge idempotence: merging a copy of a set that is strictly ascending by
the lexicographic composite key into itself leaves it unchanged and returns
an empty novel list. -/
theorem merge_idempotent (E : Entries) (h : lexAscending E = true) :
    Entries.merge E E = (E, []) := by
  rw [merge_eq_mergeFrom]
  cases E with
  | nil => rfl
  | cons e t =>
    have h2 : e.less e = false := less_irrefl e
    have hd : (e :: t).dropWhile (fun x => x.less e) = e :: t := by
      simp [List.dropWhile, h2]
    have ht : (e :: t).takeWhile (fun x => x.less e) = [] := by
      simp [List.takeWhile, h2]
    unfold mergeFrom
    rw [hd, ht]
    simp only [equal_refl, if_true, merge_self, mergeFrom_tail_self t e h]
    rfl

theorem merge_idempotent_witness :
    lexAscending [keyEntry "A" 1, keyEntry "B" 0, keyEntry "B" 2] = true ∧
      Entries.merge [keyEntry "A" 1, keyEntry "B" 0, keyEntry "B" 2]
          [keyEntry "A" 1, keyEntry "B" 0, keyEntry "B" 2]
        = ([keyEntry "A" 1, keyEntry "B" 0, keyEntry "B" 2], []) :=
  ⟨by decide, merge_idempotent _ (by decide)⟩

theorem hostKeyed_iff (o : PeerName) (c : String) (a : Address) (e : Entry) :
    hostKeyed o c a e = true ↔ e.Origin = o ∧ e.ContainerID = c ∧ e.Addr = a := by
  simp [hostKeyed, and_assoc]

theorem hostKeyed_less {o : PeerName} {c : String} {a : Address} {x y : Entry}
    (hx : hostKeyed o c a x = true) (hy : hostKeyed o c a y = true) :
    x.less y = true ↔ x.Hostname < y.Hostname := by
  rw [hostKeyed_iff] at hx hy
  rw [less_iff, hx.1, hx.2.1, hx.2.2, hy.1, hy.2.1, hy.2.2]
  simp

theorem hostKeyed_equal {o : PeerName} {c : String} {a : Address} {x y : Entry}
    (hx : hostKeyed o c a x = true) (hy : hostKeyed o c a y = true) :
    x.equal y = true ↔ x.Hostname = y.Hostname := by
  rw [hostKeyed_iff] at hx hy
  rw [equal_iff, hx.1, hx.2.1, hx.2.2, hy.1, hy.2.1, hy.2.2]
  simp

theorem hostKeyed_merge {o : PeerName} {c : String} {a : Address} {r : Entry} (e : Entry)
    (hr : hostKeyed o c a r = true) : hostKeyed o c a (r.merge e) = true := by
  rw [hostKeyed_iff] at *
  obtain ⟨_, h2, h3, h4⟩ := merge_fields r e
  rw [h2, h3, h4]
  exact hr

theorem equal_hostname {x y : Entry} (h : x.equal y = true) : x.Hostname = y.Hostname :=
  ((equal_iff x y).1 h).2.2.2

theorem mergeFrom_hostKeyed (o : PeerName) (c : String) (a : Address)
    (inc rest : List Entry)
    (hrK : ∀ x ∈ rest, hostKeyed o c a x = true)
    (hiK : ∀ x ∈ inc, hostKeyed o c a x = true)
    (hrS : rest.Pairwise (fun x y => x.Hostname < y.Hostname))
    (hiS : inc.Pairwise (fun x y => x.Hostname < y.Hostname)) :
    (mergeFrom rest inc).1.Pairwise (fun x y => x.Hostname < y.Hostname) ∧
      (mergeFrom rest inc).2 = unknownHosts rest inc := by
  induction inc generalizing rest with
  | nil => exact ⟨hrS, rfl⟩
  | cons e inc ih =>
    obtain ⟨sk, dr, rfl, hsk, hdr, hc⟩ := mergeFrom_cons_cases rest inc e
    have heK : hostKeyed o c a e = true := hiK e (List.mem_cons_self _ _)
    have hiK2 : ∀ x ∈ inc, hostKeyed o c a x = true :=
      fun x hx => hiK x (List.mem_cons_of_mem _ hx)
    obtain ⟨heI, hiS2⟩ := List.pairwise_cons.1 hiS
    obtain ⟨hskS, hdrS, hcross⟩ := List.pairwise_append.1 hrS
    have hskH : ∀ s ∈ sk, s.Hostname < e.Hostname := fun s hs =>
      (hostKeyed_less (hrK s (List.mem_append_left _ hs)) heK).1 (hsk s hs)
    have hskNe : ∀ x ∈ inc, sk.any (fun l => l.Hostname == x.Hostname) = false := by
      intro x hx
      rw [Bool.eq_false_iff]
      intro hany
      obtain ⟨s, hs, hsx⟩ := List.any_eq_true.1 hany
      have h1 := hskH s hs
      have h2 := heI x hx
      have h3 : s.Hostname = x.Hostname := by simpa using hsx
      rw [h3] at h1
      exact lt_asymm h1 h2
    rcases hc with ⟨r, rs, rfl, hq, heq⟩ | ⟨hne, heq⟩
    · -- merged with the entry at the cursor
      have hrK' : hostKeyed o c a r = true := hrK r (by simp)
      have hmH : (r.merge e).Hostname = r.Hostname := (merge_fields r e).1
      have hreH : r.Hostname = e.Hostname := equal_hostname hq
      have hK' : ∀ x ∈ r.merge e :: rs, hostKeyed o c a x = true := by
        intro x hx
        rcases List.mem_cons.1 hx with rfl | hx
        · exact hostKeyed_merge e hrK'
        · exact hrK x (by simp [hx])
      obtain ⟨hr1, hr2⟩ := List.pairwise_cons.1 hdrS
      have hS' : (r.merge e :: rs).Pairwise (fun x y => x.Hostname < y.Hostname) := by
        refine List.pairwise_cons.2 ⟨?_, hr2⟩
        intro y hy
        rw [hmH]
        exact hr1 y hy
      obtain ⟨ih1, ih2⟩ := ih (r.merge e :: rs) hK' hiK2 hS' hiS2
      obtain ⟨_, _, g3, _⟩ := mergeFrom_grow inc (r.merge e :: rs)
      rw [heq]
      refine ⟨?_, ?_⟩
      · refine List.pairwise_append.2 ⟨hskS, ih1, ?_⟩
        intro s hs x hx
        rcases g3 x hx with ⟨l, hl, hxl⟩ | ⟨y, hy, hxy⟩
        · rw [equal_hostname hxl]
          rcases List.mem_cons.1 hl with rfl | hl
          · rw [hmH]
            exact hcross s hs r (List.mem_cons_self _ _)
          · exact hcross s hs l (List.mem_cons_of_mem _ hl)
        · rw [equal_hostname hxy]
          exact lt_trans (hskH s hs) (heI y hy)
      · show (mergeFrom (r.merge e :: rs) inc).2 = unknownHosts (sk ++ r :: rs) (e :: inc)
        rw [ih2]
        unfold unknownHosts
        rw [List.filter_cons]
        have hpe : (!(sk ++ r :: rs).any (fun l => l.Hostname == e.Hostname)) = false := by
          simp [hreH]
        rw [hpe]
        simp only [Bool.false_eq_true, if_false]
        apply List.filter_congr
        intro x hx
        rw [List.any_append, hskNe x hx, List.any_cons, List.any_cons, hmH]
        simp
    · -- inserted at the cursor
      have hdrH : ∀ d ∈ dr, e.Hostname < d.Hostname := by
        cases dr with
        | nil => intro d hd; cases hd
        | cons r rs =>
          have hrK' : hostKeyed o c a r = true := hrK r (by simp)
          have h1 : ¬ r.Hostname < e.Hostname := by
            intro h
            have := (hostKeyed_less hrK' heK).2 h
            rw [hdr r (by simp)] at this
            exact Bool.false_ne_true this
          have h2 : r.Hostname ≠ e.Hostname := by
            intro h
            have := (hostKeyed_equal hrK' heK).2 h
            rw [hne r (by simp)] at this
            exact Bool.false_ne_true this
          have h3 : e.Hostname < r.Hostname :=
            lt_of_le_of_ne (not_lt.1 h1) (Ne.symm h2)
          intro d hd
          rcases List.mem_cons.1 hd with rfl | hd
          · exact h3
          · exact lt_trans h3 ((List.pairwise_cons.1 hdrS).1 d hd)
      have hK' : ∀ x ∈ e :: dr, hostKeyed o c a x = true := by
        intro x hx
        rcases List.mem_cons.1 hx with rfl | hx
        · exact heK
        · exact hrK x (List.mem_append_right _ hx)
      have hS' : (e :: dr).Pairwise (fun x y => x.Hostname < y.Hostname) :=
        List.pairwise_cons.2 ⟨hdrH, hdrS⟩
      obtain ⟨ih1, ih2⟩ := ih (e :: dr) hK' hiK2 hS' hiS2
      obtain ⟨_, _, g3, _⟩ := mergeFrom_grow inc (e :: dr)
      rw [heq]
      refine ⟨?_, ?_⟩
      · refine List.pairwise_append.2 ⟨hskS, ih1, ?_⟩
        intro s hs x hx
        rcases g3 x hx with ⟨l, hl, hxl⟩ | ⟨y, hy, hxy⟩
        · rw [equal_hostname hxl]
          rcases List.mem_cons.1 hl with rfl | hl
          · exact hskH s hs
          · exact hcross s hs l hl
        · rw [equal_hostname hxy]
          exact lt_trans (hskH s hs) (heI y hy)
      · show e :: (mergeFrom (e :: dr) inc).2 = unknownHosts (sk ++ dr) (e :: inc)
        rw [ih2]
        unfold unknownHosts
        rw [List.filter_cons]
        have hpe : (!(sk ++ dr).any (fun l => l.Hostname == e.Hostname)) = true := by
          rw [Bool.not_eq_true', Bool.eq_false_iff]
          intro hany
          obtain ⟨l, hl, hle⟩ := List.any_eq_true.1 hany
          have hle' : l.Hostname = e.Hostname := by simpa using hle
          rcases List.mem_append.1 hl with hl | hl
          · exact absurd hle' (ne_of_lt (hskH l hl))
          · exact absurd hle' (ne_of_gt (hdrH l hl))
        rw [hpe]
        simp only [if_true]
        congr 1
        apply List.filter_congr
        intro x hx
        rw [List.any_append, hskNe x hx, List.any_cons]
        have : (e.Hostname == x.Hostname) = false := by
          simpa using ne_of_lt (heI x hx)
        rw [this]

theorem forall₂_exists {R : Entry → Entry → Prop} {l1 l2 : List Entry}
    (h : List.Forall₂ R l1 l2) : ∀ x ∈ l1, ∃ y ∈ l2, R x y := by
  induction h with
  | nil => intro x hx; cases hx
  | cons hab _ ih =>
    intro x hx
    rcases List.mem_cons.1 hx with rfl | hx
    · exact ⟨_, List.mem_cons_self _ _, hab⟩
    · obtain ⟨y, hy, hxy⟩ := ih x hx
      exact ⟨y, List.mem_cons_of_mem _ hy, hxy⟩

theorem pairwise_strLess_iff (l : List Entry) :
    l.Pairwise (fun x y => strLess x.Hostname y.Hostname = true) ↔
      l.Pairwise (fun x y => x.Hostname < y.Hostname) := by
  constructor
  · exact List.Pairwise.imp (fun h => (strLess_iff _ _).1 h)
  · exact List.Pairwise.imp (fun h => (strLess_iff _ _).2 h)

/-- C9. Merge of hostname-keyed sets gives the sorted union: when all entries
of the local set and of the incoming batch share Origin, ContainerID and Addr
and each list is strictly ascending by Hostname, the local set after the merge
is strictly ascending by Hostname (so holds each hostname once), holds exactly
the hostnames of either input, and the returned novel list is the incoming
entries whose Hostname the local set did not hold, in ascending order. -/
theorem merge_hostname_union (o : PeerName) (c : String) (a : Address)
    (es incoming : Entries)
    (hK : ∀ x ∈ es ++ incoming, hostKeyed o c a x = true)
    (hes : es.Pairwise (fun x y => strLess x.Hostname y.Hostname = true))
    (hinc : incoming.Pairwise (fun x y => strLess x.Hostname y.Hostname = true)) :
    (Entries.merge es incoming).1.Pairwise
        (fun x y => strLess x.Hostname y.Hostname = true) ∧
      ((Entries.merge es incoming).1.map Entry.Hostname).Nodup ∧
      (∀ h, h ∈ (Entries.merge es incoming).1.map Entry.Hostname ↔
        h ∈ es.map Entry.Hostname ∨ h ∈ incoming.map Entry.Hostname) ∧
      (Entries.merge es incoming).2 = unknownHosts es incoming ∧
      (Entries.merge es incoming).2.Pairwise
        (fun x y => strLess x.Hostname y.Hostname = true) := by
  rw [pairwise_strLess_iff] at hes hinc
  obtain ⟨h1, h2⟩ := mergeFrom_hostKeyed o c a incoming es
    (fun x hx => hK x (List.mem_append_left _ hx))
    (fun x hx => hK x (List.mem_append_right _ hx)) hes hinc
  obtain ⟨⟨sub, hsub, hf⟩, g2, g3, _⟩ := mergeFrom_grow incoming es
  rw [merge_eq_mergeFrom]
  refine ⟨(pairwise_strLess_iff _).2 h1, ?_, ?_, h2, ?_⟩
  · rw [List.Nodup, List.pairwise_map]
    exact h1.imp (fun h => ne_of_lt h)
  · intro h
    simp only [List.mem_map]
    constructor
    · rintro ⟨x, hx, rfl⟩
      rcases g3 x hx with ⟨l, hl, hxl⟩ | ⟨y, hy, hxy⟩
      · exact Or.inl ⟨l, hl, (equal_hostname hxl).symm⟩
      · exact Or.inr ⟨y, hy, (equal_hostname hxy).symm⟩
    · rintro (⟨l, hl, rfl⟩ | ⟨y, hy, rfl⟩)
      · obtain ⟨b, hb, hlb⟩ := forall₂_exists hf l hl
        exact ⟨b, hsub.subset hb, equal_hostname hlb.1⟩
      · obtain ⟨r, hr, hre⟩ := g2 y hy
        exact ⟨r, hr, equal_hostname hre⟩
  · rw [h2, pairwise_strLess_iff]
    exact hinc.sublist (List.filter_sublist _)

theorem merge_hostname_union_witness :
    (∀ x ∈ [hostEntry "A", hostEntry "C", hostEntry "D", hostEntry "F"]
        ++ [hostEntry "B", hostEntry "E", hostEntry "F"], hostKeyed 0 "" 0 x = true) ∧
    [hostEntry "A", hostEntry "C", hostEntry "D", hostEntry "F"].Pairwise
      (fun x y => strLess x.Hostname y.Hostname = true) ∧
    [hostEntry "B", hostEntry "E", hostEntry "F"].Pairwise
      (fun x y => strLess x.Hostname y.Hostname = true) ∧
    Entries.merge [hostEntry "A", hostEntry "C", hostEntry "D", hostEntry "F"]
        [hostEntry "B", hostEntry "E", hostEntry "F"]
      = ([hostEntry "A", hostEntry "B", hostEntry "C", hostEntry "D", hostEntry "E",
          hostEntry "F"], [hostEntry "B", hostEntry "E"]) ∧
    (Entries.merge [hostEntry "A", hostEntry "C", hostEntry "D", hostEntry "F"]
        [hostEntry "B", hostEntry "E", hostEntry "F"]).2
      = unknownHosts [hostEntry "A", hostEntry "C", hostEntry "D", hostEntry "F"]
          [hostEntry "B", hostEntry "E", hostEntry "F"] :=
  ⟨by decide, by decide, by decide, by decide,
    (merge_hostname_union 0 "" 0
      [hostEntry "A", hostEntry "C", hostEntry "D", hostEntry "F"]
      [hostEntry "B", hostEntry "E", hostEntry "F"]
      (by decide) (by decide) (by decide)).2.2.2.1⟩

theorem searchLoop_spec (f : Nat → Bool) (n : Nat)
    (hmono : ∀ a b, a ≤ b → b < n → f a = true → f b = true) :
    ∀ fuel i j, i ≤ j → j ≤ n → j - i ≤ fuel →
      (∀ k, k < i → f k = false) → (∀ k, j ≤ k → k < n → f k = true) →
      searchLoop f fuel i j ≤ n ∧
        (∀ k, k < searchLoop f fuel i j → f k = false) ∧
        (∀ k, searchLoop f fuel i j ≤ k → k < n → f k = true) := by
  intro fuel
  induction fuel with
  | zero =>
    intro i j hij hjn hfuel hlo hhi
    have : i = j := by omega
    subst this
    exact ⟨hjn, hlo, hhi⟩
  | succ fuel ih =>
    intro i j hij hjn hfuel hlo hhi
    unfold searchLoop
    by_cases hlt : i < j
    · simp only [hlt, if_true]
      have hm1 : i ≤ (i + j) / 2 := by omega
      have hm2 : (i + j) / 2 < j := by omega
      by_cases hf : f ((i + j) / 2) = true
      · simp only [hf, Bool.not_true, Bool.false_eq_true, if_false]
        apply ih i ((i + j) / 2) hm1 (by omega) (by omega) hlo
        intro k hk hkn
        exact hmono _ _ hk hkn hf
      · have hf' : f ((i + j) / 2) = false := by simpa using hf
        simp only [hf', Bool.not_false, if_true]
        apply ih ((i + j) / 2 + 1) j (by omega) hjn (by omega) _ hhi
        intro k hk
        by_contra hk'
        have hk'' : f k = true := by simpa using hk'
        have := hmono k ((i + j) / 2) (by omega) (by omega) hk''
        rw [hf'] at this
        exact Bool.false_ne_true this
    · simp only [hlt, if_false]
      have : i = j := by omega
      subst this
      exact ⟨hjn, hlo, hhi⟩

theorem sortSearch_spec (f : Nat → Bool) (n : Nat)
    (hmono : ∀ a b, a ≤ b → b < n → f a = true → f b = true) :
    sortSearch n f ≤ n ∧ (∀ k, k < sortSearch n f → f k = false) ∧
      (∀ k, sortSearch n f ≤ k → k < n → f k = true) := by
  unfold sortSearch
  apply searchLoop_spec f n hmono n 0 n (Nat.zero_le _) (le_refl _) (by omega)
  · intro k hk; omega
  · intro k hk hkn; omega

theorem atIndex_eq {α : Type} (l : List α) (p : α → Bool) (k : Nat) (h : k < l.length) :
    atIndex l p k = p (l.get ⟨k, h⟩) := by
  unfold atIndex
  rw [List.get?_eq_get h]

theorem atIndex_mono {α : Type} (l : List α) (p : α → Bool)
    (hs : l.Pairwise (fun x y => p x = true → p y = true)) :
    ∀ a b, a ≤ b → b < l.length → atIndex l p a = true → atIndex l p b = true := by
  intro a b hab hb ha
  rcases Nat.eq_or_lt_of_le hab with rfl | hlt
  · exact ha
  · have hpw := List.pairwise_iff_getElem.1 hs a b (by omega) hb hlt
    rw [atIndex_eq l p a (by omega)] at ha
    rw [atIndex_eq l p b hb]
    exact hpw ha

theorem search_partition {α : Type} (l : List α) (p : α → Bool)
    (hs : l.Pairwise (fun x y => p x = true → p y = true)) :
    (∀ x ∈ l.take (sortSearch l.length (atIndex l p)), p x = false) ∧
      (∀ x ∈ l.drop (sortSearch l.length (atIndex l p)), p x = true) := by
  obtain ⟨hle, hlo, hhi⟩ := sortSearch_spec (atIndex l p) l.length (atIndex_mono l p hs)
  constructor
  · intro x hx
    obtain ⟨k, hk, rfl⟩ := List.mem_take_iff_getElem.1 hx
    have hk1 : k < sortSearch l.length (atIndex l p) := (lt_min_iff.1 hk).1
    have hk2 : k < l.length := (lt_min_iff.1 hk).2
    have := hlo k hk1
    rw [atIndex_eq l p k hk2] at this
    exact this
  · intro x hx
    obtain ⟨k, hk, rfl⟩ := List.mem_drop_iff_getElem.1 hx
    have hb : sortSearch l.length (atIndex l p) + k < l.length := by omega
    have := hhi (sortSearch l.length (atIndex l p) + k) (by omega) hb
    rw [atIndex_eq l p _ hb] at this
    exact this

theorem atIndex_drop {α : Type} (l : List α) (p : α → Bool) (i : Nat) :
    (fun j => atIndex l p (i + j)) = atIndex (l.drop i) p := by
  funext j
  unfold atIndex
  rw [List.get?_eq_getElem?, List.get?_eq_getElem?, List.getElem?_drop]

theorem strLess_false_iff (a b : String) : strLess a b = false ↔ b ≤ a := by
  rw [← not_lt, ← strLess_iff]
  simp

/-- C10. Lookup returns the contiguous hostname range: on a set whose hostnames
are in non-decreasing order, `lookup h` is exactly the entries with hostname
`h`, in stored order, whatever their Tombstone; in particular it is empty when
no entry has that hostname. -/
theorem lookup_eq_filter (es : Entries) (h : String)
    (hs : es.Pairwise (fun x y => strLess y.Hostname x.Hostname = false)) :
    es.lookup h = es.filter (fun e => e.Hostname == h) ∧
      ((∀ e ∈ es, e.Hostname ≠ h) → es.lookup h = []) := by
  have hs' : es.Pairwise (fun x y => x.Hostname ≤ y.Hostname) :=
    hs.imp (fun hxy => (strLess_false_iff _ _).1 hxy)
  have main : es.lookup h = es.filter (fun e => e.Hostname == h) := by
    have hm1 : es.Pairwise (fun x y => (!(strLess x.Hostname h)) = true →
        (!(strLess y.Hostname h)) = true) := by
      refine hs'.imp ?_
      intro x y hxy hx
      simp only [Bool.not_eq_true', strLess_false_iff] at hx ⊢
      exact le_trans hx hxy
    obtain ⟨hA, hB⟩ := search_partition es (fun e => !(strLess e.Hostname h)) hm1
    generalize hi : sortSearch es.length (atIndex es (fun e => !(strLess e.Hostname h))) = i
      at hA hB
    have hA' : ∀ x ∈ es.take i, x.Hostname < h := by
      intro x hx
      have := hA x hx
      simp only [Bool.not_eq_false'] at this
      exact (strLess_iff _ _).1 this
    have hB' : ∀ x ∈ es.drop i, h ≤ x.Hostname := by
      intro x hx
      have := hB x hx
      simp only [Bool.not_eq_true'] at this
      exact (strLess_false_iff _ _).1 this
    have hfilt : es.filter (fun e => e.Hostname == h)
        = (es.drop i).filter (fun e => e.Hostname == h) := by
      conv_lhs => rw [← List.take_append_drop i es]
      rw [List.filter_append]
      have : (es.take i).filter (fun e => e.Hostname == h) = [] := by
        rw [List.filter_eq_nil_iff]
        intro x hx
        simpa using ne_of_lt (hA' x hx)
      rw [this, List.nil_append]
    have hdS : (es.drop i).Pairwise (fun x y => x.Hostname ≤ y.Hostname) :=
      hs'.sublist (List.drop_sublist _ _)
    unfold Entries.lookup
    simp only [hi]
    rw [hfilt]
    cases hget : es.get? i with
    | none =>
      rw [List.get?_eq_getElem?, List.getElem?_eq_none_iff] at hget
      simp [List.drop_of_length_le hget]
    | some e =>
      rw [List.get?_eq_getElem?] at hget
      obtain ⟨hlt, he⟩ := List.getElem?_eq_some_iff.1 hget
      have hdrop : es.drop i = e :: es.drop (i + 1) := by
        rw [← he]
        exact List.drop_eq_getElem_cons hlt
      by_cases hne : e.Hostname = h
      · -- the range starts at the cursor
        have hcond : (e.Hostname != h) = false := by simp [hne]
        simp only [hcond, Bool.false_eq_true, if_false]
        rw [atIndex_drop, ← List.length_drop]
        have hm2 : (es.drop i).Pairwise (fun x y => strLess h x.Hostname = true →
            strLess h y.Hostname = true) := by
          refine hdS.imp ?_
          intro x y hxy hx
          rw [strLess_iff] at hx ⊢
          exact lt_of_lt_of_le hx hxy
        obtain ⟨hC, hD⟩ := search_partition (es.drop i)
          (fun e => strLess h e.Hostname) hm2
        generalize sortSearch (es.drop i).length
          (atIndex (es.drop i) (fun e => strLess h e.Hostname)) = j at hC hD
        rw [List.drop_take, Nat.add_sub_cancel_left]
        conv_rhs => rw [← List.take_append_drop j (es.drop i)]
        rw [List.filter_append]
        have h1 : ((es.drop i).take j).filter (fun e => e.Hostname == h)
            = (es.drop i).take j := by
          rw [List.filter_eq_self]
          intro x hx
          have hx1 := hC x hx
          have hx2 := hB' x ((List.take_sublist _ _).subset hx)
          have hx3 : x.Hostname ≤ h := (strLess_false_iff _ _).1 hx1
          simpa using le_antisymm hx3 hx2
        have h2 : ((es.drop i).drop j).filter (fun e => e.Hostname == h) = [] := by
          rw [List.filter_eq_nil_iff]
          intro x hx
          have hx1 := (strLess_iff _ _).1 (hD x hx)
          simpa using ne_of_gt hx1
        rw [h1, h2, List.append_nil]
      · -- the cursor is at a greater hostname: nothing to return
        have hcond : (e.Hostname != h) = true := by simp [hne]
        simp only [hcond, if_true]
        symm
        rw [List.filter_eq_nil_iff]
        intro x hx
        have hge : h ≤ e.Hostname := hB' _ (by rw [hdrop]; simp)
        have hgt : h < e.Hostname := lt_of_le_of_ne hge (Ne.symm hne)
        have hx' : h < x.Hostname := by
          rw [hdrop] at hx hdS
          rcases List.mem_cons.1 hx with rfl | hx
          · exact hgt
          · exact lt_of_lt_of_le hgt ((List.pairwise_cons.1 hdS).1 x hx)
        simpa using ne_of_gt hx'
  refine ⟨main, ?_⟩
  intro hno
  rw [main, List.filter_eq_nil_iff]
  intro e he
  simpa using hno e he

theorem lookup_eq_filter_witness :
    [hostEntry "A", containerEntry "B" "foo", containerEntry "B" "bar",
        hostEntry "C"].Pairwise (fun x y => strLess y.Hostname x.Hostname = false) ∧
      Entries.lookup [hostEntry "A", containerEntry "B" "foo", containerEntry "B" "bar",
          hostEntry "C"] "B"
        = [containerEntry "B" "foo", containerEntry "B" "bar"] := by
  refine ⟨by decide, ?_⟩
  rw [(lookup_eq_filter _ "B" (by decide)).1]
  decide

/-- C1. `Entry.less` is not the lexicographic order on the composite key: the
entry with key ("B", 0) is `less` than the entry with key ("A", 1) although its
key is lexicographically greater, and `less` holds in both directions between
the two (not asymmetric), while neither is `less` than itself (not transitive). -/
theorem less_not_lexicographic :
    (keyEntry "B" 0).less (keyEntry "A" 1) = true ∧
      (keyEntry "B" 0).lexLess (keyEntry "A" 1) = false ∧
      (keyEntry "A" 1).lexLess (keyEntry "B" 0) = true ∧
      (keyEntry "A" 1).less (keyEntry "B" 0) = true ∧
      (keyEntry "B" 0).less (keyEntry "B" 0) = false := by
  decide

/-- C2. Merge does not preserve the sort order: the local set [("B", 0)] and the
incoming batch [("A", 1)] are each strictly ascending by the lexicographic key,
and the merge leaves the local set [("B", 0), ("A", 1)], which is not. -/
theorem merge_breaks_sort_order :
    lexAscending [keyEntry "B" 0] = true ∧ lexAscending [keyEntry "A" 1] = true ∧
      (Entries.merge [keyEntry "B" 0] [keyEntry "A" 1]).1
        = [keyEntry "B" 0, keyEntry "A" 1] ∧
      lexAscending (Entries.merge [keyEntry "B" 0] [keyEntry "A" 1]).1 = false := by
  decide

/-- C3. Merge does not preserve uniqueness of identity: the local set
[("B", 0)] and the incoming batch [("A", 1), ("B", 0)] are each strictly
ascending by the lexicographic key, and the merge leaves the local set
[("B", 0), ("A", 1), ("B", 0)], which holds the key ("B", 0) twice. -/
theorem merge_duplicates_identity :
    lexAscending [keyEntry "B" 0] = true ∧
      lexAscending [keyEntry "A" 1, keyEntry "B" 0] = true ∧
      (Entries.merge [keyEntry "B" 0] [keyEntry "A" 1, keyEntry "B" 0]).1
        = [keyEntry "B" 0, keyEntry "A" 1, keyEntry "B" 0] ∧
      uniqueKeys (Entries.merge [keyEntry "B" 0] [keyEntry "A" 1, keyEntry "B" 0]).1
        = false := by
  decide

/-- C4. The returned novel list misses a newer version at an existing identity:
merging the batch [("A", 0) at Version 1, Tombstone 5] into the local set
[("A", 0) at Version 0] adopts Version 1 and Tombstone 5 and returns the empty
list, while the novel subset of the specification is the incoming entry. -/
theorem merge_omits_newer_version :
    Entries.merge [versionEntry "A" 0 0 0] [versionEntry "A" 0 1 5]
        = ([versionEntry "A" 0 1 5], []) ∧
      novelSubset [versionEntry "A" 0 0 0] [versionEntry "A" 0 1 5]
        = [versionEntry "A" 0 1 5] := by
  decide

/-- C5. Version arbitration fails at set level: the local set holds ("B", 0) at
Version 2, the incoming batch [("A", 1), ("B", 0) at Version 3, Tombstone 20]
is strictly ascending by the lexicographic key, and after the merge the local
set holds the identity ("B", 0) twice, once still at Version 2. -/
theorem merge_misses_version_arbitration :
    lexAscending [versionEntry "B" 0 2 10] = true ∧
      lexAscending [versionEntry "A" 1 0 0, versionEntry "B" 0 3 20] = true ∧
      (Entries.merge [versionEntry "B" 0 2 10]
          [versionEntry "A" 1 0 0, versionEntry "B" 0 3 20]).1
        = [versionEntry "B" 0 2 10, versionEntry "A" 1 0 0, versionEntry "B" 0 3 20] := by
  decide

/-- C7. Merge is not commutative on disjoint batches: into the empty set,
merging [("B", 0)] and then [("A", 1)] gives [("B", 0), ("A", 1)], while merging
[("A", 1)] and then [("B", 0)] gives [("A", 1), ("B", 0)]. -/
theorem merge_not_commutative :
    (Entries.merge (Entries.merge [] [keyEntry "B" 0]).1 [keyEntry "A" 1]).1
        = [keyEntry "B" 0, keyEntry "A" 1] ∧
      (Entries.merge (Entries.merge [] [keyEntry "A" 1]).1 [keyEntry "B" 0]).1
        = [keyEntry "A" 1, keyEntry "B" 0] ∧
      (Entries.merge (Entries.merge [] [keyEntry "B" 0]).1 [keyEntry "A" 1]).1
        ≠ (Entries.merge (Entries.merge [] [keyEntry "A" 1]).1 [keyEntry "B" 0]).1 := by
  decide

theorem deleteLoop_spec (f : Entry → Bool) (rest done junk : List Entry) :
    ((Entries.deleteLoop f rest.length (done ++ junk ++ rest)
        (done.length + junk.length) done.length).1).take
      (Entries.deleteLoop f rest.length (done ++ junk ++ rest)
        (done.length + junk.length) done.length).2
      = done ++ rest.filter (fun e => !f e) := by
  induction rest generalizing done junk with
  | nil => simp [Entries.deleteLoop]
  | cons e rest ih =>
    have hget : (done ++ junk ++ e :: rest).get? (done.length + junk.length) = some e := by
      have := getAt_length (done ++ junk) (e :: rest)
      simpa using this
    rw [List.length_cons, Entries.deleteLoop, hget]
    by_cases hf : f e = true
    · simp only [hf, if_true]
      have := ih done (junk ++ [e])
      simp only [List.length_append, List.length_singleton, List.append_assoc,
        List.singleton_append] at this
      rw [List.filter_cons]
      simp only [hf, Bool.not_true, Bool.false_eq_true, if_false]
      rw [← this, List.append_assoc, Nat.add_assoc]
    · have hf' : f e = false := by simpa using hf
      simp only [hf', Bool.false_eq_true, if_false]
      obtain ⟨x, tl, hx⟩ : ∃ x tl, junk ++ [e] = x :: tl := by
        cases junk with
        | nil => exact ⟨e, [], rfl⟩
        | cons j js => exact ⟨j, js ++ [e], rfl⟩
      have hlen : tl.length = junk.length := by
        have := congrArg List.length hx
        simp at this
        omega
      have harr : done ++ junk ++ e :: rest = done ++ x :: (tl ++ rest) := by
        rw [List.append_assoc, ← List.cons_append, ← hx]
        simp
      have hset : (done ++ junk ++ e :: rest).set done.length e
          = (done ++ [e]) ++ tl ++ rest := by
        rw [harr, set_at_length]
        simp
      have := ih (done ++ [e]) tl
      rw [hset]
      rw [List.length_append, List.length_singleton, hlen] at this
      have hk : done.length + junk.length + 1 = done.length + 1 + junk.length := by omega
      rw [hk, this, List.filter_cons]
      simp [hf']

theorem delete_eq_filter (es : Entries) (f : Entry → Bool) :
    es.delete f = es.filter (fun e => !f e) := by
  have := deleteLoop_spec f es [] []
  simpa [Entries.delete] using this

/-- C12. Delete is an order-preserving filter: the set after `delete(f)` is the
subsequence of the entries for which `f` is false, each unchanged, so no entry
satisfying `f` remains; after `PeerGone(p)` no entry of origin `p` remains and
every entry of another origin is kept.  Deleting hostname "A" from [A, B]
gives [B]. -/
theorem delete_is_filter (es : Entries) (f : Entry → Bool) (n : Nameserver) (p : PeerName) :
    es.delete f = es.filter (fun e => !f e) ∧
      (∀ e ∈ es.delete f, f e = false) ∧
      (n.PeerGone p).entries = n.entries.filter (fun e => !(e.Origin == p)) ∧
      (∀ e ∈ (n.PeerGone p).entries, e.Origin ≠ p) ∧
      (∀ e ∈ n.entries, e.Origin ≠ p → e ∈ (n.PeerGone p).entries) ∧
      Entries.delete [hostEntry "A", hostEntry "B"] (fun e => e.Hostname == "A")
        = [hostEntry "B"] := by
  refine ⟨delete_eq_filter es f, ?_, ?_, ?_, ?_, by decide⟩
  · intro e he
    rw [delete_eq_filter, List.mem_filter] at he
    simpa using he.2
  · simp [Nameserver.PeerGone, delete_eq_filter]
  · intro e he
    simp only [Nameserver.PeerGone, delete_eq_filter, List.mem_filter] at he
    simpa using he.2
  · intro e he hne
    simp only [Nameserver.PeerGone, delete_eq_filter, List.mem_filter]
    exact ⟨he, by simpa using hne⟩

/-- C14. The reaper also discards live entries: with the clock at 1000, one
tick on a set that holds one live entry (Tombstone 0) leaves the set empty,
because 1000 - 0 exceeds the 600-second window and the predicate does not ask
for a tombstone. -/
theorem deleteTombstones_removes_live :
    (hostEntry "A").Tombstone = 0 ∧
      (Nameserver.deleteTombstones { ourName := 1, entries := [hostEntry "A"] } 1000).entries
        = [] := by
  decide

/-- C16. The gossip adapter's Merge panics when it learns something: merging
the batch [A] into the empty set makes `merge` return the novel list [A],
which is not nil, and `Merge` panics with it. -/
theorem Merge_panics_on_novel :
    Entries.Merge [] [hostEntry "A"] = Except.error [hostEntry "A"] ∧
      (Entries.merge [] [hostEntry "A"]).1 = [hostEntry "A"] :=
  ⟨rfl, by decide⟩

/-- C18. OnGossip never returns nil on success: on the set [A], a message that
decodes to the batch [A] holds nothing new, and OnGossip returns a reference
to the empty novel list (`some []`), not the nil GossipData (`none`). -/
theorem OnGossip_not_nil :
    (Entries.merge [hostEntry "A"] [hostEntry "A"]).2 = [] ∧
      Nameserver.OnGossip { ourName := 1, entries := [hostEntry "A"] }
          (fun _ => Except.ok [hostEntry "A"]) []
        = ({ ourName := 1, entries := [hostEntry "A"] }, some [], none) := by
  decide

/-- C19. The GET route does not normalise the hostname: on an empty set, with
the broadcast succeeding, `PUT /name/foo/<ip>/c1` answers 204 and stores the
hostname "foo.", and `GET /name/foo` then answers 404, because it looks up
"foo" as given. -/
theorem get_misses_put_hostname :
    putName dnsFqdn (fun _ => some 167772161) (fun _ => none)
        { ourName := 1, entries := [] } "foo" "10.0.0.1" "c1"
      = ({ ourName := 1, entries :=
            [{ Hostname := "foo.", Addr := 167772161, Origin := 1, ContainerID := "c1",
               Version := 0, Tombstone := 0 }] }, 204) ∧
      getName (putName dnsFqdn (fun _ => some 167772161) (fun _ => none)
        { ourName := 1, entries := [] } "foo" "10.0.0.1" "c1").1 "foo" = (404, []) ∧
      getName (putName dnsFqdn (fun _ => some 167772161) (fun _ => none)
        { ourName := 1, entries := [] } "foo" "10.0.0.1" "c1").1 "foo."
        = (200, [167772161]) := by
  decide

/-- C20. A valid batch is rejected: the batch [("A", 1), ("B", 0)] is strictly
ascending by the lexicographic key, yet `check` reports "Not sorted!" because
("B", 0) is `less` than ("A", 1), and receiveGossip returns the error without
merging. -/
theorem check_rejects_valid_batch :
    lexAscending [keyEntry "A" 1, keyEntry "B" 0] = true ∧
      Entries.check [keyEntry "A" 1, keyEntry "B" 0] = some "Not sorted!" ∧
      Nameserver.receiveGossip { ourName := 1, entries := [] }
          (fun _ => Except.ok [keyEntry "A" 1, keyEntry "B" 0]) []
        = { ns := { ourName := 1, entries := [] }, novel := none, received := none,
            err := some "Not sorted!" } := by
  decide

theorem deleteFilter_iff (hostname containerid ipStr : String) (ip : Address) (e : Entry) :
    deleteFilter hostname containerid ipStr ip e = true ↔
      (hostname = "*" ∨ e.Hostname = hostname) ∧
        (containerid = "*" ∨ e.ContainerID = containerid) ∧
        (ipStr = "*" ∨ e.Addr = ip) := by
  unfold deleteFilter
  by_cases h1 : hostname = "*" <;> by_cases h2 : e.Hostname = hostname <;>
    by_cases h3 : containerid = "*" <;> by_cases h4 : e.ContainerID = containerid <;>
    by_cases h5 : ipStr = "*" <;> by_cases h6 : e.Addr = ip <;>
    simp [h1, h2, h3, h4, h5, h6]

theorem sortIsSorted_of_descends (es : Entries) (h : descends es = true) :
    sortIsSorted es = false := by
  induction es with
  | nil => simp [descends] at h
  | cons a t ih =>
    cases t with
    | nil => simp [descends] at h
    | cons b rest =>
      simp only [descends, Bool.or_eq_true] at h
      simp only [sortIsSorted, Bool.and_eq_false_imp]
      intro hs
      rcases h with h | h
      · simp [less_of_lexLess b a h]
      · rw [ih h] at hs
        exact absurd hs Bool.false_ne_true

theorem check_of_descends (es : Entries) (h : descends es = true) :
    es.check = some "Not sorted!" := by
  simp [Entries.check, sortIsSorted_of_descends es h]

/-- C15 (as stated, refuted). A batch whose two entries share the same key is
not strictly ascending, yet it is accepted: on the empty set, receiveGossip of
a message that decodes to [A, A] returns no error and leaves the set [A]. -/
theorem duplicate_batch_accepted :
    lexAscending [hostEntry "A", hostEntry "A"] = false ∧
      Nameserver.receiveGossip { ourName := 1, entries := [] }
          (fun _ => Except.ok [hostEntry "A", hostEntry "A"]) []
        = { ns := { ourName := 1, entries := [hostEntry "A"] }, novel := some [hostEntry "A"],
            received := some [hostEntry "A", hostEntry "A"], err := none } := by
  decide

/-- C15 (amended). A decoded batch in which some adjacent pair is strictly out
of lexicographic key order is rejected in full: receiveGossip, and hence
OnGossip and OnGossipBroadcast, returns the error of `check`, returns no data,
and leaves the nameserver unchanged. -/
theorem descending_batch_rejected (n : Nameserver)
    (decode : List Nat → Except String Entries) (msg : List Nat) (batch : Entries)
    (hdec : decode msg = Except.ok batch) (hbad : descends batch = true) :
    n.receiveGossip decode msg
        = { ns := n, novel := none, received := none, err := some "Not sorted!" } ∧
      n.OnGossip decode msg = (n, none, some "Not sorted!") ∧
      n.OnGossipBroadcast decode msg = (n, none, some "Not sorted!") := by
  have h : n.receiveGossip decode msg
      = { ns := n, novel := none, received := none, err := some "Not sorted!" } := by
    simp [Nameserver.receiveGossip, hdec, check_of_descends batch hbad]
  refine ⟨h, ?_, ?_⟩
  · simp [Nameserver.OnGossip, h]
  · simp [Nameserver.OnGossipBroadcast, h]

theorem descending_batch_rejected_witness :
    descends [keyEntry "B" 0, keyEntry "A" 0] = true ∧
      Nameserver.OnGossip { ourName := 1, entries := [keyEntry "C" 0] }
          (fun _ => Except.ok [keyEntry "B" 0, keyEntry "A" 0]) []
        = ({ ourName := 1, entries := [keyEntry "C" 0] }, none, some "Not sorted!") :=
  ⟨by decide,
    (descending_batch_rejected { ourName := 1, entries := [keyEntry "C" 0] }
      (fun _ => Except.ok [keyEntry "B" 0, keyEntry "A" 0]) []
      [keyEntry "B" 0, keyEntry "A" 0] rfl (by decide)).2.1⟩

theorem lookup_finds_live (n : Nameserver) (x : Entry)
    (hs : n.entries.Pairwise (fun a b => a.Hostname ≤ b.Hostname))
    (hx : x ∈ n.entries) (hT : x.Tombstone ≤ 0) : x.Addr ∈ n.Lookup x.Hostname := by
  have hs' : n.entries.Pairwise (fun a b => strLess b.Hostname a.Hostname = false) :=
    hs.imp (fun hab => (strLess_false_iff _ _).2 hab)
  unfold Nameserver.Lookup
  rw [(lookup_eq_filter n.entries x.Hostname hs').1]
  refine List.mem_map.2 ⟨x, ?_, rfl⟩
  rw [List.mem_filter, List.mem_filter]
  refine ⟨⟨hx, by simp⟩, ?_⟩
  simp only [Bool.not_eq_true', decide_eq_false_iff_not, not_lt]
  exact hT

/-- C13 (as stated, refuted). Lookup-after-add fails on a tombstoned identity:
the set [("A", 1) at Version 1, Tombstone 1234] is sorted and unique, the entry
("A", 1) at Version 0 has the peer's own Origin and Tombstone 0, and after
AddEntry the lookup of "A" is empty, because the merge keeps the local entry
of the greater Version and the lookup skips tombstoned entries. -/
theorem add_does_not_revive_tombstone :
    lexAscending [versionEntry "A" 1 1 1234] = true ∧
      uniqueKeys [versionEntry "A" 1 1 1234] = true ∧
      (versionEntry "A" 1 0 0).Origin = 1 ∧ (versionEntry "A" 1 0 0).Tombstone = 0 ∧
      (versionEntry "A" 1 0 0).Addr ∉
        ((Nameserver.AddEntry { ourName := 1, entries := [versionEntry "A" 1 1 1234] }
          (versionEntry "A" 1 0 0) (fun _ => none)).1).Lookup "A" := by
  decide

theorem wrapInt64_succ (v : Int) (h1 : minInt64 ≤ v) (h2 : v < maxInt64) :
    wrapInt64 (v + 1) = v + 1 := by
  unfold wrapInt64
  unfold minInt64 at h1
  unfold maxInt64 at h2
  omega

theorem wrapInt64_max : wrapInt64 (maxInt64 + 1) = minInt64 := by
  decide

theorem tombstoneFrom_spec (p : PeerName) (f : Entry → Bool) (now : Nat → Int)
    (T : Int → Prop) (hT : ∀ k, T (now k)) (es : Entries) (k : Nat) :
    (Entries.tombstoneFrom p f now k es).length = es.length ∧
      List.Forall₂ (tombstoned p f T) es (Entries.tombstoneFrom p f now k es) := by
  induction es generalizing k with
  | nil => exact ⟨rfl, List.Forall₂.nil⟩
  | cons a rest ih =>
    unfold Entries.tombstoneFrom
    by_cases h : f a = true ∧ a.Origin = p
    · have hc : (f a && a.Origin == p) = true := by simp [h.1, h.2]
      simp only [hc, if_true, List.length_cons]
      refine ⟨by rw [(ih (k + 1)).1], List.Forall₂.cons ?_ (ih (k + 1)).2⟩
      refine ⟨?_, fun _ => ⟨rfl, ?_, ?_, hT k⟩, fun hn => absurd h hn⟩
      · rw [equal_iff]
        exact ⟨rfl, rfl, rfl, rfl⟩
      · intro h1 h2
        exact wrapInt64_succ a.Version h1 h2
      · intro h1
        show wrapInt64 (a.Version + 1) = minInt64
        rw [h1]
        exact wrapInt64_max
    · have hc : (f a && a.Origin == p) = false := by
        rw [Bool.eq_false_iff]
        intro hh
        simp only [Bool.and_eq_true, beq_iff_eq] at hh
        exact h hh
      simp only [hc, Bool.false_eq_true, if_false, List.length_cons]
      refine ⟨by rw [(ih k).1], List.Forall₂.cons ?_ (ih k).2⟩
      exact ⟨equal_refl a, fun hh => absurd hh h, fun _ => rfl⟩

/-- C11 (as stated, refuted). The Version is not always increased by exactly 1:
tombstoning hostname "B" in the set [B at Version 2^63 - 1] leaves the entry at
Version -2^63, because `e.Version++` wraps at the greatest integer. -/
theorem tombstone_wraps_version :
    Entries.tombstone [versionEntry "B" 0 9223372036854775807 0] 0
        (fun e => e.Hostname == "B") (fun _ => 1234)
      = [versionEntry "B" 0 (-9223372036854775808) 1234] ∧
    (-9223372036854775808 : Int) ≠ 9223372036854775807 + 1 := by
  decide

/-- C11 (amended). Tombstone retracts only the caller's own matching entries:
the set keeps its length and, position by position, its identities; an entry for
which `f` holds and whose Origin is `p` has its Version incremented as a machine
integer (increased by exactly 1 when it is below the greatest integer, the least
integer when it is the greatest) and its Tombstone set to a value `now()`
returned, which is `t` when the clock stands at `t`; every other entry is
unchanged.  With the clock at 1234, tombstoning hostname "B" in [A, B] gives
[A, B at Version 1, Tombstone 1234]. -/
theorem tombstone_own_matching (es : Entries) (p : PeerName) (f : Entry → Bool)
    (now : Nat → Int) (t : Int) :
    (es.tombstone p f now).length = es.length ∧
      List.Forall₂ (tombstoned p f (fun x => ∃ k, x = now k)) es (es.tombstone p f now) ∧
      List.Forall₂ (tombstoned p f (fun x => x = t)) es (es.tombstone p f (fun _ => t)) ∧
      Entries.tombstone [hostEntry "A", hostEntry "B"] 0 (fun e => e.Hostname == "B")
          (fun _ => 1234)
        = [hostEntry "A", versionEntry "B" 0 1 1234] := by
  refine ⟨?_, ?_, ?_, by decide⟩
  · exact (tombstoneFrom_spec p f now (fun _ => True) (fun _ => trivial) es 0).1
  · exact (tombstoneFrom_spec p f now (fun x => ∃ k, x = now k) (fun k => ⟨k, rfl⟩) es 0).2
  · exact (tombstoneFrom_spec p f (fun _ => t) (fun x => x = t) (fun _ => rfl) es 0).2

theorem selected_iff (n : Nameserver) (hostname containerid ipStr : String) (ip : Address)
    (e : Entry) :
    (deleteFilter hostname containerid ipStr ip e = true ∧ e.Origin = n.ourName) ↔
      selected n.ourName hostname containerid ipStr ip e := by
  unfold selected
  rw [deleteFilter_iff]
  tauto

theorem deleted_of_tombstoned (p : PeerName) (f : Entry → Bool) (sel : Entry → Prop)
    (t : Int) (hsel : ∀ e, (f e = true ∧ e.Origin = p) ↔ sel e) (old new : Entry)
    (h : tombstoned p f (fun x => x = t) old new) : deleted sel t old new := by
  obtain ⟨hid, hyes, hno⟩ := h
  have hkey := (equal_iff new old).1 hid
  constructor
  · intro hs
    obtain ⟨h1, h2, h3, h4⟩ := hyes ((hsel old).2 hs)
    have hnew : ∀ v : Int, new.Version = v →
        new = { old with Version := v, Tombstone := t } := by
      intro v hv
      cases new
      cases old
      simp only [Entry.mk.injEq] at *
      exact ⟨hkey.1, hkey.2.1, hkey.2.2.1, hkey.2.2.2, hv, h4⟩
    exact ⟨hnew _ h1, fun ha hb => hnew _ (h2 ha hb), fun ha => hnew _ (h3 ha)⟩
  · intro hs
    exact hno (fun hh => hs ((hsel old).1 hh))

/-- C17 (as stated, refuted). Delete does not always increase the Version by 1:
on the own entry ("A", 1) at Version 2^63 - 1, `Delete("*", "*", "*", _)` leaves
Version -2^63, because `e.Version++` wraps at the greatest integer. -/
theorem delete_wraps_version :
    (Nameserver.Delete { ourName := 1, entries := [versionEntry "A" 1 9223372036854775807 0] }
        "*" "*" "*" 0 (fun _ => 77)).entries
      = [versionEntry "A" 1 (-9223372036854775808) 77] ∧
    (-9223372036854775808 : Int) ≠ 9223372036854775807 + 1 := by
  decide

/-- C17 (amended). Delete tombstones exactly the own entries matching every
non-wildcard field: position by position, an entry with Origin `ourName` whose
Hostname, ContainerID and Addr each equal the argument or meet a "*" has its
Version incremented as a machine integer (increased by exactly 1 below the
greatest integer, the least integer at the greatest) and its Tombstone set to
the clock value `t`, and every other entry is unchanged; so
`Delete("*", "*", "*", _)` does this to every own entry and to no foreign one,
and `Delete("*", "containerX", "*", _)` to every own entry of that container
whatever its hostname and address. -/
theorem delete_wildcards (n : Nameserver) (hostname containerid ipStr : String)
    (ip : Address) (t : Int) :
    (n.Delete hostname containerid ipStr ip (fun _ => t)).ourName = n.ourName ∧
      List.Forall₂ (deleted (selected n.ourName hostname containerid ipStr ip) t)
        n.entries (n.Delete hostname containerid ipStr ip (fun _ => t)).entries ∧
      List.Forall₂ (deleted (fun e => e.Origin = n.ourName) t)
        n.entries (n.Delete "*" "*" "*" ip (fun _ => t)).entries ∧
      List.Forall₂
        (deleted (fun e => e.Origin = n.ourName ∧ e.ContainerID = "containerX") t)
        n.entries (n.Delete "*" "containerX" "*" ip (fun _ => t)).entries := by
  have key : ∀ (h c s : String) (sel : Entry → Prop),
      (∀ e, selected n.ourName h c s ip e ↔ sel e) →
      List.Forall₂ (deleted sel t) n.entries (n.Delete h c s ip (fun _ => t)).entries := by
    intro h c s sel hsel
    have := (tombstoneFrom_spec n.ourName (deleteFilter h c s ip) (fun _ => t)
      (fun x => x = t) (fun _ => rfl) n.entries 0).2
    refine this.imp ?_
    intro old new hd
    exact deleted_of_tombstoned n.ourName (deleteFilter h c s ip) sel t
      (fun e => (selected_iff n h c s ip e).trans (hsel e)) old new hd
  refine ⟨rfl, key _ _ _ _ (fun _ => Iff.rfl), key _ _ _ _ ?_, key _ _ _ _ ?_⟩
  · intro e
    unfold selected
    constructor
    · exact fun hh => hh.1
    · exact fun hh => ⟨hh, Or.inl rfl, Or.inl rfl, Or.inl rfl⟩
  · intro e
    unfold selected
    constructor
    · rintro ⟨h1, _, h3, _⟩
      rcases h3 with h3 | h3
      · exact absurd h3 (by decide)
      · exact ⟨h1, h3⟩
    · exact fun hh => ⟨hh.1, Or.inl rfl, Or.inr hh.2, Or.inl rfl⟩

theorem add_holds_live (es : Entries) (e : Entry) (hT : e.Tombstone = 0)
    (hlive : (∀ l ∈ es, l.equal e = true → e.Version ≤ l.Version → l.Tombstone ≤ 0) ∨
      (∃ l ∈ es, l.equal e = false ∧ l.Hostname = e.Hostname ∧ l.Addr = e.Addr ∧
        l.Tombstone ≤ 0)) :
    ∃ x ∈ (es.merge [e]).1, x.Hostname = e.Hostname ∧ x.Addr = e.Addr ∧ x.Tombstone ≤ 0 := by
  rw [merge_eq_mergeFrom]
  obtain ⟨sk, dr, hes, _, _, hc⟩ := mergeFrom_cons_cases es [] e
  rcases hc with ⟨r, rs, rfl, hq, heq⟩ | ⟨_, heq⟩
  · -- an entry of the same identity is at the cursor: it is merged
    rw [heq]
    simp only [mergeFrom]
    have hmf := merge_fields r e
    have hre := (equal_iff r e).1 hq
    rcases hlive with hlive | ⟨l, hl, hne, hlH, hlA, hlT⟩
    · refine ⟨r.merge e, by simp, ?_, ?_, ?_⟩
      · rw [hmf.1, hre.2.2.2]
      · rw [hmf.2.2.2, hre.2.2.1]
      · by_cases hv : e.Version > r.Version
        · simp [Entry.merge, hv, hT]
        · have hm : r.merge e = r := by simp [Entry.merge, hv]
          rw [hm]
          exact hlive r (by rw [hes]; simp) hq (not_lt.1 hv)
    · refine ⟨l, ?_, hlH, hlA, hlT⟩
      rw [hes] at hl
      rcases List.mem_append.1 hl with hl | hl
      · exact List.mem_append_left _ hl
      · rcases List.mem_cons.1 hl with rfl | hl
        · rw [hq] at hne
          exact absurd hne (by decide)
        · exact List.mem_append_right _ (List.mem_cons_of_mem _ hl)
  · -- no entry of the same identity at the cursor: `e` is inserted
    rw [heq]
    simp only [mergeFrom]
    exact ⟨e, by simp, rfl, rfl, le_of_eq hT⟩

/-- C13 (amended). Lookup-after-add: for every nameserver state and every
entry `e` with Tombstone 0, if no held entry of the identity of `e` with a
Version at least that of `e` is tombstoned, or the set already holds a live
entry of another identity with the Hostname and Addr of `e`, then right after
`AddEntry(e)`, whatever the broadcast returns, the set holds a live entry with
the Hostname and Addr of `e`, and the lookup of `e.Hostname` contains `e.Addr`
provided the hostnames of the set after the add are in non-decreasing order. -/
theorem lookup_after_add (n : Nameserver) (e : Entry) (broadcast : Entries → Option String)
    (hT : e.Tombstone = 0)
    (hlive : (∀ l ∈ n.entries, l.equal e = true → e.Version ≤ l.Version →
        l.Tombstone ≤ 0) ∨
      (∃ l ∈ n.entries, l.equal e = false ∧ l.Hostname = e.Hostname ∧ l.Addr = e.Addr ∧
        l.Tombstone ≤ 0)) :
    (∃ x ∈ (n.AddEntry e broadcast).1.entries,
        x.Hostname = e.Hostname ∧ x.Addr = e.Addr ∧ x.Tombstone ≤ 0) ∧
      ((n.AddEntry e broadcast).1.entries.Pairwise
          (fun x y => strLess y.Hostname x.Hostname = false) →
        e.Addr ∈ ((n.AddEntry e broadcast).1).Lookup e.Hostname) := by
  have hx := add_holds_live n.entries e hT hlive
  refine ⟨hx, ?_⟩
  intro hpost
  obtain ⟨x, hxm, hxH, hxA, hxT⟩ := hx
  have hpost' : (n.AddEntry e broadcast).1.entries.Pairwise
      (fun a b => a.Hostname ≤ b.Hostname) :=
    hpost.imp (fun hab => (strLess_false_iff _ _).1 hab)
  have := lookup_finds_live (n.AddEntry e broadcast).1 x hpost' hxm hxT
  rw [hxH, hxA] at this
  exact this

theorem lookup_after_add_witness :
    (containerEntry "B" "b").Tombstone = 0 ∧
      ((Nameserver.AddEntry
          { ourName := 0,
            entries := [{ containerEntry "B" "a" with Origin := 1, Addr := 5 }] }
          { containerEntry "B" "b" with Addr := 9 } (fun _ => some "no peers")).1).entries
        = [{ containerEntry "B" "a" with Origin := 1, Addr := 5 },
            { containerEntry "B" "b" with Addr := 9 }] ∧
      9 ∈ ((Nameserver.AddEntry
          { ourName := 0,
            entries := [{ containerEntry "B" "a" with Origin := 1, Addr := 5 }] }
          { containerEntry "B" "b" with Addr := 9 } (fun _ => some "no peers")).1).Lookup "B" :=
  ⟨by decide, by decide,
    (lookup_after_add
      { ourName := 0, entries := [{ containerEntry "B" "a" with Origin := 1, Addr := 5 }] }
      { containerEntry "B" "b" with Addr := 9 } (fun _ => some "no peers") (by decide)
      (Or.inl (by decide))).2 (by decide)⟩

end Gossipdns
